import Mathlib

/-!
The VPM container parser of vpmextract.

A shallow embedding of `src/vpmextract.c` (functions `read_whole_vpm`,
`extract_wav_file`, `extract_whole_vpm`) and the properties of its entry
enumeration.

Conventions of the embedding (the platform the program is built for):

* `unsigned long` is 64 bits wide; every `unsigned long` sum is taken modulo
  `ULONG_MOD = 2 ^ 64`.
* `int` is 32 bits wide; incrementing `idx` past `INT_MAX` is undefined and
  is reported as the outcome `int_overflow`.
* The host is little-endian: the `uint16_t` and `uint32_t` fields that the
  program reads through struct pointers are decoded least significant byte
  first.
* A read outside the buffer (undefined in C) is reported as the outcome
  `bad_read`; the byte offsets of the table fields that are dereferenced are
  logged in `Run.reads`.
* The file system is taken to work: `fopen`, `fseek`, `ftell`, `fwrite`,
  `fclose` and `malloc` of a positive size succeed, and `fread` of a positive
  size delivers the file.  For an empty file `read_whole_vpm` asks `fread`
  for one item of size 0; `fread` then returns 0 and the program exits with
  "file read failed" (outcome `read_failed`).
* The argument of the embedded `extract_whole_vpm` is the contents of the
  source file; the buffer `vpm` of the program is what `read_whole_vpm`
  returns for it.  The observable result of a run is the list of files
  handed to `extract_wav_file` together with the way the run ended.
-/

namespace Vpm

/-- One byte of the source buffer. -/
abbrev Byte := Fin 256

/-- Modulus of `unsigned long` arithmetic. -/
def ULONG_MOD : Nat := 2 ^ 64

/-- Largest value of `int`. -/
def INT_MAX : Nat := 2147483647

/-- The limit of `read_whole_vpm`: `50 * 1024 * 1024` bytes. -/
def MAX_FILE_SIZE : Nat := 50 * 1024 * 1024

/-! ## Struct layout -/

/-- Round `n` up to a multiple of `a`. -/
def align_up (n a : Nat) : Nat := (n + a - 1) / a * a

/-- Offsets of the members of a struct whose members are given as
(size, alignment) pairs, starting at byte `cur`. -/
def struct_offsets : Nat → List (Nat × Nat) → List Nat
  | _, [] => []
  | cur, (sz, al) :: fs => align_up cur al :: struct_offsets (align_up cur al + sz) fs

/-- First byte after the last member. -/
def struct_end : Nat → List (Nat × Nat) → Nat
  | cur, [] => cur
  | cur, (sz, al) :: fs => struct_end (align_up cur al + sz) fs

/-- Value of `sizeof` for a struct: its end rounded up to its strictest
member alignment. -/
def struct_sizeof (fs : List (Nat × Nat)) : Nat :=
  align_up (struct_end 0 fs) ((fs.map Prod.snd).foldl max 1)

/-- Members of `struct vpm_header` as (size, alignment): `vpm_magic[6]`,
`vpm_version[3]`, `vpm_second`, `vpm_minute`, `vpm_hour`, `vpm_day`,
`vpm_month`, `vpm_year`, `vpm_list_offset`, `vpm_lang_id`. -/
def vpm_header_members : List (Nat × Nat) :=
  [(6, 1), (3, 1), (1, 1), (1, 1), (1, 1), (1, 1), (1, 1), (2, 2), (2, 2), (1, 1)]

/-- Members of `struct vpm_list_entry`: `vpm_wav_offset`, `vpm_wav_length`. -/
def vpm_list_entry_members : List (Nat × Nat) := [(4, 4), (4, 4)]

/-- Value of `sizeof(struct vpm_header)`. -/
def sizeof_vpm_header : Nat := 20

/-- Value of `sizeof(struct vpm_list_entry)`. -/
def sizeof_vpm_list_entry : Nat := 8

/-- Value of `sizeof(hdr->vpm_magic)`. -/
def sizeof_vpm_magic : Nat := 6

/-- Byte offset of `vpm_list_offset` inside `struct vpm_header`. -/
def offsetof_vpm_list_offset : Nat := 16

/-- Byte offset of `vpm_wav_length` inside `struct vpm_list_entry`. -/
def offsetof_vpm_wav_length : Nat := 4

/-- The magic tag, the ASCII bytes of `AUDIMG`. -/
def AUDIMG : List Byte := [65, 85, 68, 73, 77, 71]

/-! ## Reading the buffer -/

/-- The `n` bytes of the buffer that start at byte `o`, when they all lie
inside it. -/
def read_bytes (vpm : List Byte) (o n : Nat) : Option (List Byte) :=
  if o + n ≤ vpm.length then some ((vpm.drop o).take n) else none

/-- Little-endian value of a byte string. -/
def le_decode : List Byte → Nat
  | [] => 0
  | b :: bs => b.val + 256 * le_decode bs

/-- A `uint16_t` field at byte `o`. -/
def read_u16 (vpm : List Byte) (o : Nat) : Option Nat :=
  (read_bytes vpm o 2).map le_decode

/-- A `uint32_t` field at byte `o`. -/
def read_u32 (vpm : List Byte) (o : Nat) : Option Nat :=
  (read_bytes vpm o 4).map le_decode

/-! ## Results of a run -/

/-- How a run of `extract_whole_vpm` ends. -/
inductive Outcome where
  /-- the loop reached its `break` and the function returned -/
  | ok
  /-- exit with "file is huge" -/
  | file_huge
  /-- exit with "file read failed" -/
  | read_failed
  /-- exit with "source file is too small" -/
  | too_small
  /-- exit with "not a Garmin vpm file (wrong magic)" -/
  | bad_magic
  /-- exit with "offset array is too big for the file" -/
  | table_oob
  /-- exit with "wav file is out of bounds" -/
  | wav_oob
  /-- an access outside the buffer -/
  | bad_read
  /-- increment of `idx` beyond `INT_MAX` -/
  | int_overflow
  /-- the iteration budget of the embedding was used up -/
  | out_of_fuel
  deriving DecidableEq, Repr

/-- One call of `extract_wav_file`: its arguments `offset`, `length`, `idx`
and the bytes of the buffer it passes to `fwrite` for file number `idx`. -/
structure Extracted where
  idx : Nat
  wav_offset : Nat
  wav_length : Nat
  data : List Byte
  deriving DecidableEq, Repr

/-- The descriptor `(index, wav_offset, wav_length)` of an extracted file. -/
def Extracted.descriptor (f : Extracted) : Nat × Nat × Nat :=
  (f.idx, f.wav_offset, f.wav_length)

/-- What one pass through the body of the `for` loop does. -/
inductive Step where
  | table_oob
  | stop
  | wav_oob
  | bad_read
  /-- `extract_wav_file` is called and its range lies inside the buffer -/
  | yield (f : Extracted)
  /-- `extract_wav_file` is called with a range that leaves the buffer -/
  | wild_call (f : Extracted)
  deriving DecidableEq, Repr

/-- A run: the calls of `extract_wav_file`, in order, every call made being
listed (also one whose range leaves the buffer, after which the run ends
with `bad_read`); the byte offsets of the 32-bit table fields read, in
order; and how it ended. -/
structure Run where
  files : List Extracted
  reads : List Nat
  outcome : Outcome
  deriving DecidableEq, Repr

/-! ## The program -/

/-- `read_whole_vpm`: the whole file as a buffer, unless it is larger than
50 MiB or `fread(buf, size, 1, file)` does not return 1, which is the case
for `size = 0`. -/
def read_whole_vpm (file : List Byte) : Except Outcome (List Byte) :=
  if file.length > MAX_FILE_SIZE then .error .file_huge
  else if file.length = 0 then .error .read_failed
  else .ok file

/-- `extract_wav_file`: writes `length` bytes starting at `vpm + offset` to
file number `idx`; no result when those bytes do not all lie inside the
buffer. -/
def extract_wav_file (vpm : List Byte) (offset length idx : Nat) : Option Extracted :=
  (read_bytes vpm offset length).map fun d => ⟨idx, offset, length, d⟩

/-- The table bounds test of the loop,
`off + sizeof(*entry) < off || off + sizeof(*entry) > size`. -/
def table_check (size off : Nat) : Bool :=
  decide ((off + sizeof_vpm_list_entry) % ULONG_MOD < off) ||
    decide ((off + sizeof_vpm_list_entry) % ULONG_MOD > size)

/-- The payload bounds test of the loop,
`wav_off + wav_len < wav_off || wav_off + wav_len > size`. -/
def wav_check (size wav_off wav_len : Nat) : Bool :=
  decide ((wav_off + wav_len) % ULONG_MOD < wav_off) ||
    decide ((wav_off + wav_len) % ULONG_MOD > size)

/-- Value of `off = hdr->vpm_list_offset + idx * sizeof(*entry)`. -/
def entry_off (list_offset idx : Nat) : Nat :=
  (list_offset + (idx * sizeof_vpm_list_entry) % ULONG_MOD) % ULONG_MOD

/-- The body of the `for` loop for one value of `idx`, with the table
fields it reads. -/
def loop_body (vpm : List Byte) (list_offset idx : Nat) : List Nat × Step :=
  let size := vpm.length
  let off := entry_off list_offset idx
  if table_check size off then ([], .table_oob)
  else
    match read_u32 vpm list_offset with
    | none => ([list_offset], .bad_read)
    | some first =>
      if off ≥ first then ([list_offset], .stop)
      else
        let rd := [list_offset, off, off + offsetof_vpm_wav_length]
        match read_u32 vpm off, read_u32 vpm (off + offsetof_vpm_wav_length) with
        | some wav_off, some wav_len =>
          if wav_check size wav_off wav_len then (rd, .wav_oob)
          else
            match extract_wav_file vpm wav_off wav_len idx with
            | some f => (rd, .yield f)
            | none =>
              (rd, .wild_call ⟨idx, wav_off, wav_len, (vpm.drop wav_off).take wav_len⟩)
        | _, _ => (rd, .bad_read)

/-- The `for (idx = 0;; ++idx)` loop, entered at `idx` with a budget of
`fuel` iterations. -/
def extract_loop (vpm : List Byte) (list_offset : Nat) : Nat → Nat → Run
  | 0, _ => ⟨[], [], .out_of_fuel⟩
  | fuel + 1, idx =>
    match loop_body vpm list_offset idx with
    | (rd, .yield f) =>
      if idx + 1 ≤ INT_MAX then
        let r := extract_loop vpm list_offset fuel (idx + 1)
        ⟨f :: r.files, rd ++ r.reads, r.outcome⟩
      else ⟨[f], rd, .int_overflow⟩
    | (rd, .stop) => ⟨[], rd, .ok⟩
    | (rd, .table_oob) => ⟨[], rd, .table_oob⟩
    | (rd, .wav_oob) => ⟨[], rd, .wav_oob⟩
    | (rd, .bad_read) => ⟨[], rd, .bad_read⟩
    | (rd, .wild_call f) => ⟨[f], rd, .bad_read⟩

/-- `extract_whole_vpm` on a source file with the given contents, with a
budget of `fuel` loop iterations. -/
def extract_whole_vpm_fuel (fuel : Nat) (file : List Byte) : Run :=
  match read_whole_vpm file with
  | .error e => ⟨[], [], e⟩
  | .ok vpm =>
    if vpm.length < sizeof_vpm_header then ⟨[], [], .too_small⟩
    else
      match read_bytes vpm 0 sizeof_vpm_magic with
      | none => ⟨[], [], .bad_read⟩
      | some magic =>
        if magic ≠ AUDIMG then ⟨[], [], .bad_magic⟩
        else
          match read_u16 vpm offsetof_vpm_list_offset with
          | none => ⟨[], [], .bad_read⟩
          | some list_offset => extract_loop vpm list_offset fuel 0

/-- `extract_whole_vpm` on a source file with the given contents.  The
budget `size / 8 + 1` is never used up (`extract_loop_enough_fuel`). -/
def extract_whole_vpm (file : List Byte) : Run :=
  extract_whole_vpm_fuel (file.length / sizeof_vpm_list_entry + 1) file

/-! ## Vocabulary of the statements -/

/-- The buffer is one that the program loads and whose header it accepts:
at most 50 MiB, at least `sizeof(struct vpm_header)` bytes, magic `AUDIMG`. -/
def passes_header (vpm : List Byte) : Prop :=
  vpm.length ≤ MAX_FILE_SIZE ∧ sizeof_vpm_header ≤ vpm.length ∧
    vpm.take sizeof_vpm_magic = AUDIMG

instance (vpm : List Byte) : Decidable (passes_header vpm) := by
  unfold passes_header; infer_instance

/-- Value of `hdr->vpm_list_offset`. -/
def hdr_list_offset (vpm : List Byte) : Nat :=
  (read_u16 vpm offsetof_vpm_list_offset).getD 0

/-- Value of `vpm_wav_offset` of the entry stored at byte `off`. -/
def wav_offset_at (vpm : List Byte) (off : Nat) : Nat :=
  (read_u32 vpm off).getD 0

/-- Value of `vpm_wav_length` of the entry stored at byte `off`. -/
def wav_length_at (vpm : List Byte) (off : Nat) : Nat :=
  (read_u32 vpm (off + offsetof_vpm_wav_length)).getD 0

/-- Value of `first_entry->vpm_wav_offset`, the terminator offset. -/
def first_wav_offset (vpm : List Byte) : Nat :=
  wav_offset_at vpm (hdr_list_offset vpm)

/-- Byte offset of table slot `i`: `list_offset + 8 * i`. -/
def slot (vpm : List Byte) (i : Nat) : Nat :=
  hdr_list_offset vpm + 8 * i

/-- The loop body in closed form, without fixed-width arithmetic and with
total readers. -/
def body_closed (vpm : List Byte) (list_offset idx : Nat) : List Nat × Step :=
  let off := list_offset + 8 * idx
  if off + 8 > vpm.length then ([], .table_oob)
  else if off ≥ wav_offset_at vpm list_offset then ([list_offset], .stop)
  else if wav_offset_at vpm off + wav_length_at vpm off > vpm.length then
    ([list_offset, off, off + 4], .wav_oob)
  else
    ([list_offset, off, off + 4],
      .yield ⟨idx, wav_offset_at vpm off, wav_length_at vpm off,
        (vpm.drop (wav_offset_at vpm off)).take (wav_length_at vpm off)⟩)

/-- The file that the loop extracts for table slot `i`. -/
def entry_file (vpm : List Byte) (list_offset i : Nat) : Extracted :=
  ⟨i, wav_offset_at vpm (list_offset + 8 * i), wav_length_at vpm (list_offset + 8 * i),
    (vpm.drop (wav_offset_at vpm (list_offset + 8 * i))).take
      (wav_length_at vpm (list_offset + 8 * i))⟩

/-- Facts that hold of a run of the loop entered at `idx`. -/
structure LoopFacts (vpm : List Byte) (list_offset fuel idx : Nat) (r : Run) : Prop where
  files_eq : r.files = (List.range' idx r.files.length).map (entry_file vpm list_offset)
  in_table : ∀ i, idx ≤ i → i < idx + r.files.length →
    list_offset + 8 * i + 8 ≤ vpm.length ∧ list_offset + 8 * i < wav_offset_at vpm list_offset ∧
      wav_offset_at vpm (list_offset + 8 * i) + wav_length_at vpm (list_offset + 8 * i)
        ≤ vpm.length
  ending :
    (r.outcome = .ok ∧ list_offset + 8 * (idx + r.files.length) + 8 ≤ vpm.length ∧
        wav_offset_at vpm list_offset ≤ list_offset + 8 * (idx + r.files.length)) ∨
    (r.outcome = .table_oob ∧ vpm.length < list_offset + 8 * (idx + r.files.length) + 8) ∨
    (r.outcome = .wav_oob ∧ list_offset + 8 * (idx + r.files.length) + 8 ≤ vpm.length ∧
        list_offset + 8 * (idx + r.files.length) < wav_offset_at vpm list_offset ∧
        vpm.length < wav_offset_at vpm (list_offset + 8 * (idx + r.files.length)) +
          wav_length_at vpm (list_offset + 8 * (idx + r.files.length))) ∨
    (r.outcome = .out_of_fuel ∧ r.files.length = fuel)
  reads_ok : ∀ o ∈ r.reads, ∃ j, list_offset + 8 * j + 8 ≤ vpm.length ∧
    (o = list_offset + 8 * j ∨ o = list_offset + 8 * j + 4)

/-- Little-endian encoding of a 32-bit value. -/
def le32 (n : Nat) : List Byte :=
  [Fin.ofNat n, Fin.ofNat (n / 256), Fin.ofNat (n / 65536), Fin.ofNat (n / 16777216)]

/-- Little-endian encoding of a 16-bit value. -/
def le16 (n : Nat) : List Byte := [Fin.ofNat n, Fin.ofNat (n / 256)]

/-- A 20-byte header: magic, 10 opaque bytes (version and timestamp),
`list_offset`, language identifier and the trailing padding byte. -/
def mk_header (list_offset : Nat) : List Byte :=
  AUDIMG ++ [49, 48, 48, 1, 2, 3, 4, 5, 232, 7] ++ le16 list_offset ++ [9, 0]

/-- A synthetic container: header, table of `(offset, length)` entries at
byte 20, then the payload bytes. -/
def mk_container (entries : List (Nat × Nat)) (payload : List Byte) : List Byte :=
  mk_header 20 ++ entries.flatMap (fun e => le32 e.1 ++ le32 e.2) ++ payload

/-- The container of the spec's concrete scenario: `list_offset = 19`, one
entry `{27, 4}` at byte 19, four payload bytes, 31 bytes in all. -/
def scenario_31 : List Byte :=
  AUDIMG ++ [49, 48, 48, 1, 2, 3, 4, 5, 232, 7] ++ le16 19 ++ [9] ++
    le32 27 ++ le32 4 ++ [10, 11, 12, 13]

/-- A synthetic container with two entries `{36, 5}` and `{41, 3}` and
their eight payload bytes, 44 bytes in all. -/
def sample_two : List Byte :=
  mk_container [(36, 5), (41, 3)] [1, 2, 3, 4, 5, 6, 7, 8]

/-- A 19-byte buffer that starts with the magic tag. -/
def sample_short : List Byte :=
  AUDIMG ++ [49, 48, 48, 1, 2, 3, 4, 5, 232, 7] ++ le16 19 ++ [9]

/-- A 20-byte buffer whose first six bytes are `AUDIMX`. -/
def sample_wrong_magic : List Byte :=
  [65, 85, 68, 73, 77, 88] ++ [49, 48, 48, 1, 2, 3, 4, 5, 232, 7] ++ le16 20 ++ [9, 0]

/-- A header whose `list_offset` is 20 in a buffer of 26 bytes: the first
table slot does not fit. -/
def sample_no_table : List Byte :=
  mk_header 20 ++ [28, 0, 0, 0, 1, 0]

/-- One entry `{28, 8}` whose payload ends exactly at the end of the
36-byte buffer. -/
def sample_exact : List Byte := mk_container [(28, 8)] [1, 2, 3, 4, 5, 6, 7, 8]

/-- One entry `{28, 9}` whose payload ends one byte after the end of the
36-byte buffer. -/
def sample_one_beyond : List Byte := mk_container [(28, 9)] [1, 2, 3, 4, 5, 6, 7, 8]

/-- One entry `{0xFFFFFFF0, 0x20}`, whose sum does not fit in 32 bits. -/
def sample_overflow : List Byte :=
  mk_container [(0xFFFFFFF0, 0x20)] [1, 2, 3, 4, 5, 6, 7, 8]

/-- A container whose first entry's `wav_offset` (20) equals `list_offset`. -/
def sample_self : List Byte := mk_container [(20, 4)] [1, 2, 3, 4]

/-- A well-formed container with `N ≥ 1` entries `(wo i, wl i)`: the header
passes, entry `i` is stored in slot `list_offset + 8 * i`, payload 0 starts
right after the table, each further payload starts where the previous one
ends, and the buffer ends with the last payload. -/
def well_formed (vpm : List Byte) (N : Nat) (wo wl : Nat → Nat) : Prop :=
  passes_header vpm ∧ 1 ≤ N ∧
    (∀ i, i < N → read_u32 vpm (slot vpm i) = some (wo i) ∧
      read_u32 vpm (slot vpm i + 4) = some (wl i)) ∧
    wo 0 = slot vpm N ∧
    (∀ i, i + 1 < N → wo (i + 1) = wo i + wl i) ∧
    vpm.length = wo (N - 1) + wl (N - 1)

/-- One entry `{28, 100}` in a buffer of 30 bytes: the payload does not fit,
and fewer than 8 bytes follow the end of the table. -/
def sample_bad_payload : List Byte := mk_container [(28, 100)] [1, 2]

/-- A synthetic container whose two payloads are stored apart from each
other: entry 0 is `{36, 3}`, entry 1 is `{40, 4}`, byte 39 belongs to
neither. -/
def sample_apart : List Byte :=
  mk_container [(36, 3), (40, 4)] [21, 22, 23, 0, 31, 32, 33, 34]

/-! ## Facts about the layout and the readers -/

theorem sizeof_vpm_header_layout :
    struct_sizeof vpm_header_members = sizeof_vpm_header ∧
    struct_sizeof vpm_list_entry_members = sizeof_vpm_list_entry ∧
    (struct_offsets 0 vpm_header_members).get? 8 = some offsetof_vpm_list_offset ∧
    (struct_offsets 0 vpm_list_entry_members).get? 1 = some offsetof_vpm_wav_length := by
  decide

theorem read_bytes_eq_some {vpm : List Byte} {o n : Nat} {d : List Byte} :
    read_bytes vpm o n = some d ↔ o + n ≤ vpm.length ∧ d = (vpm.drop o).take n := by
  unfold read_bytes
  split
  · simp [*, eq_comm]
  · simp [*]

theorem read_bytes_of_le {vpm : List Byte} {o n : Nat} (h : o + n ≤ vpm.length) :
    read_bytes vpm o n = some ((vpm.drop o).take n) := by
  simp [read_bytes, h]

theorem read_bytes_eq_none {vpm : List Byte} {o n : Nat} :
    read_bytes vpm o n = none ↔ vpm.length < o + n := by
  unfold read_bytes
  split
  · simp; omega
  · simp; omega

theorem read_bytes_length {vpm : List Byte} {o n : Nat} {d : List Byte}
    (h : read_bytes vpm o n = some d) : d.length = n := by
  obtain ⟨hle, rfl⟩ := read_bytes_eq_some.1 h
  simp; omega

theorem le_decode_lt (l : List Byte) : le_decode l < 256 ^ l.length := by
  induction l with
  | nil => simp [le_decode]
  | cons b bs ih =>
    have hb := b.isLt
    simp only [le_decode, List.length_cons, pow_succ]
    omega

theorem read_u32_eq_some {vpm : List Byte} {o v : Nat} (h : read_u32 vpm o = some v) :
    o + 4 ≤ vpm.length ∧ v < 4294967296 := by
  unfold read_u32 at h
  cases hb : read_bytes vpm o 4 with
  | none => simp [hb] at h
  | some d =>
    simp [hb] at h
    have hl := read_bytes_length hb
    have := le_decode_lt d
    rw [hl] at this
    refine ⟨(read_bytes_eq_some.1 hb).1, ?_⟩
    subst h; simpa using this

theorem read_u32_of_le (vpm : List Byte) (o : Nat) (h : o + 4 ≤ vpm.length) :
    read_u32 vpm o = some ((read_u32 vpm o).getD 0) := by
  simp [read_u32, read_bytes_of_le h]

theorem read_u16_eq_some {vpm : List Byte} {o v : Nat} (h : read_u16 vpm o = some v) :
    o + 2 ≤ vpm.length ∧ v < 65536 := by
  unfold read_u16 at h
  cases hb : read_bytes vpm o 2 with
  | none => simp [hb] at h
  | some d =>
    simp [hb] at h
    have hl := read_bytes_length hb
    have := le_decode_lt d
    rw [hl] at this
    refine ⟨(read_bytes_eq_some.1 hb).1, ?_⟩
    subst h; simpa using this

theorem read_u16_of_le {vpm : List Byte} {o : Nat} (h : o + 2 ≤ vpm.length) :
    read_u16 vpm o = some ((read_u16 vpm o).getD 0) := by
  simp [read_u16, read_bytes_of_le h]

theorem hdr_list_offset_lt (vpm : List Byte) : hdr_list_offset vpm < 65536 := by
  unfold hdr_list_offset
  cases h : read_u16 vpm offsetof_vpm_list_offset with
  | none => simp
  | some v => simpa using (read_u16_eq_some h).2

theorem wav_offset_at_lt (vpm : List Byte) (off : Nat) : wav_offset_at vpm off < 4294967296 := by
  unfold wav_offset_at
  cases h : read_u32 vpm off with
  | none => simp
  | some v => simpa using (read_u32_eq_some h).2

theorem wav_length_at_lt (vpm : List Byte) (off : Nat) : wav_length_at vpm off < 4294967296 := by
  unfold wav_length_at
  cases h : read_u32 vpm (off + offsetof_vpm_wav_length) with
  | none => simp
  | some v => simpa using (read_u32_eq_some h).2

/-! ## The fixed-width arithmetic of the loop -/

theorem entry_off_eq {list_offset idx : Nat} (hL : list_offset < 65536) (hi : idx ≤ INT_MAX) :
    entry_off list_offset idx = list_offset + 8 * idx := by
  unfold entry_off sizeof_vpm_list_entry ULONG_MOD
  unfold INT_MAX at hi
  omega

theorem table_check_eq {size off : Nat} (h : off < 2 ^ 63) :
    table_check size off = decide (off + 8 > size) := by
  unfold table_check sizeof_vpm_list_entry ULONG_MOD
  have h1 : (off + 8) % 2 ^ 64 = off + 8 := by omega
  rw [h1]
  by_cases hs : off + 8 > size <;> simp [hs]

theorem wav_check_eq {size wav_off wav_len : Nat} (ho : wav_off < 4294967296)
    (hl : wav_len < 4294967296) :
    wav_check size wav_off wav_len = decide (wav_off + wav_len > size) := by
  unfold wav_check ULONG_MOD
  have h1 : (wav_off + wav_len) % 2 ^ 64 = wav_off + wav_len := by omega
  rw [h1]
  by_cases hs : wav_off + wav_len > size <;> simp [hs]

theorem loop_body_eq_closed (vpm : List Byte) {list_offset idx : Nat}
    (hL : list_offset < 65536) (hi : idx ≤ INT_MAX) :
    loop_body vpm list_offset idx = body_closed vpm list_offset idx := by
  have hoff := entry_off_eq hL hi
  have hlt : list_offset + 8 * idx < 2 ^ 63 := by unfold INT_MAX at hi; omega
  unfold loop_body body_closed
  simp only [hoff, table_check_eq hlt, offsetof_vpm_wav_length]
  by_cases h1 : list_offset + 8 * idx + 8 > vpm.length
  · simp [h1]
  · have hf := read_u32_of_le vpm list_offset (by omega)
    have ha := read_u32_of_le vpm (list_offset + 8 * idx) (by omega)
    have hb := read_u32_of_le vpm (list_offset + 8 * idx + 4) (by omega)
    have hwo := wav_offset_at_lt vpm (list_offset + 8 * idx)
    have hwl := wav_length_at_lt vpm (list_offset + 8 * idx)
    simp only [h1, decide_False, Bool.false_eq_true, if_false]
    rw [hf]
    simp only [wav_offset_at]
    by_cases h2 : list_offset + 8 * idx ≥ (read_u32 vpm list_offset).getD 0
    · simp [h2]
    · simp only [h2, if_false]
      rw [ha, hb]
      simp only [wav_offset_at, wav_length_at, offsetof_vpm_wav_length] at hwo hwl ⊢
      simp only [wav_check_eq hwo hwl]
      by_cases h3 : (read_u32 vpm (list_offset + 8 * idx)).getD 0 +
          (read_u32 vpm (list_offset + 8 * idx + 4)).getD 0 > vpm.length
      · simp [h3]
      · simp only [h3, decide_False, Bool.false_eq_true, if_false]
        have h3' : ¬ vpm.length < (read_u32 vpm (list_offset + 8 * idx)).getD 0 +
            (read_u32 vpm (list_offset + 8 * idx + 4)).getD 0 := h3
        simp [extract_wav_file, read_bytes_of_le (Nat.le_of_not_gt h3), h3']

/-! ## The loop, one iteration at a time -/

theorem extract_loop_succ (vpm : List Byte) {list_offset idx : Nat} (fuel : Nat)
    (hL : list_offset < 65536) (hi : idx ≤ INT_MAX) (hs : vpm.length ≤ MAX_FILE_SIZE) :
    extract_loop vpm list_offset (fuel + 1) idx =
      if list_offset + 8 * idx + 8 > vpm.length then ⟨[], [], .table_oob⟩
      else if list_offset + 8 * idx ≥ wav_offset_at vpm list_offset then
        ⟨[], [list_offset], .ok⟩
      else if wav_offset_at vpm (list_offset + 8 * idx) +
          wav_length_at vpm (list_offset + 8 * idx) > vpm.length then
        ⟨[], [list_offset, list_offset + 8 * idx, list_offset + 8 * idx + 4], .wav_oob⟩
      else
        ⟨entry_file vpm list_offset idx ::
            (extract_loop vpm list_offset fuel (idx + 1)).files,
          [list_offset, list_offset + 8 * idx, list_offset + 8 * idx + 4] ++
            (extract_loop vpm list_offset fuel (idx + 1)).reads,
          (extract_loop vpm list_offset fuel (idx + 1)).outcome⟩ := by
  rw [extract_loop, loop_body_eq_closed vpm hL hi]
  unfold body_closed
  by_cases h1 : list_offset + 8 * idx + 8 > vpm.length
  · simp [h1]
  · by_cases h2 : list_offset + 8 * idx ≥ wav_offset_at vpm list_offset
    · simp [h1, h2]
    · by_cases h3 : wav_offset_at vpm (list_offset + 8 * idx) +
          wav_length_at vpm (list_offset + 8 * idx) > vpm.length
      · simp [h1, h2, h3]
      · have hint : idx + 1 ≤ INT_MAX := by
          unfold MAX_FILE_SIZE at hs; unfold INT_MAX; omega
        simp [h1, h2, h3, hint, entry_file]

theorem extract_loop_facts (vpm : List Byte) {list_offset : Nat}
    (hL : list_offset < 65536) (hs : vpm.length ≤ MAX_FILE_SIZE) :
    ∀ (fuel idx : Nat), idx ≤ INT_MAX →
      LoopFacts vpm list_offset fuel idx (extract_loop vpm list_offset fuel idx) := by
  intro fuel
  induction fuel with
  | zero =>
    intro idx _
    refine ⟨by simp [extract_loop], by intro i h1 h2; simp [extract_loop] at h2; omega, ?_,
      by simp [extract_loop]⟩
    simp [extract_loop]
  | succ fuel ih =>
    intro idx hi
    rw [extract_loop_succ vpm fuel hL hi hs]
    by_cases h1 : list_offset + 8 * idx + 8 > vpm.length
    · simp only [h1, if_true]
      refine ⟨by simp, by intro i h1 h2; simp at h2; omega, ?_, by simp⟩
      right; left
      simpa using h1
    · by_cases h2 : list_offset + 8 * idx ≥ wav_offset_at vpm list_offset
      · simp only [h1, h2, if_true, if_false]
        refine ⟨by simp, by intro i h1 h2; simp at h2; omega, ?_, ?_⟩
        · left
          refine ⟨rfl, ?_, ?_⟩ <;> simp <;> omega
        · intro o ho
          simp at ho
          exact ⟨0, by omega, by omega⟩
      · by_cases h3 : wav_offset_at vpm (list_offset + 8 * idx) +
            wav_length_at vpm (list_offset + 8 * idx) > vpm.length
        · simp only [h1, h2, h3, if_true, if_false]
          refine ⟨by simp, by intro i h1 h2; simp at h2; omega, ?_, ?_⟩
          · right; right; left
            refine ⟨rfl, ?_, ?_, ?_⟩ <;> simp <;> omega
          · intro o ho
            simp at ho
            rcases ho with rfl | rfl | rfl
            · exact ⟨0, by omega, by omega⟩
            · exact ⟨idx, by omega, by omega⟩
            · exact ⟨idx, by omega, by omega⟩
        · simp only [h1, h2, h3, if_false]
          have hint : idx + 1 ≤ INT_MAX := by
            unfold MAX_FILE_SIZE at hs; unfold INT_MAX; omega
          have F := ih (idx + 1) hint
          generalize extract_loop vpm list_offset fuel (idx + 1) = r at F
          obtain ⟨F1, F2, F3, F4⟩ := F
          refine ⟨?_, ?_, ?_, ?_⟩
          · simp only [List.length_cons, List.range'_succ, List.map_cons]
            rw [← F1]
          · intro i hi1 hi2
            simp only [List.length_cons] at hi2
            by_cases hii : i = idx
            · subst hii; omega
            · exact F2 i (by omega) (by omega)
          · simp only [List.length_cons]
            have e : idx + (r.files.length + 1) = idx + 1 + r.files.length := by omega
            rw [e]
            rcases F3 with h | h | h | h
            · exact Or.inl h
            · exact Or.inr (Or.inl h)
            · exact Or.inr (Or.inr (Or.inl h))
            · exact Or.inr (Or.inr (Or.inr ⟨h.1, by omega⟩))
          · intro o ho
            simp only [List.mem_append, List.mem_cons, List.mem_singleton,
              List.not_mem_nil, or_false] at ho
            rcases ho with (rfl | rfl | rfl) | ho
            · exact ⟨0, by omega, by omega⟩
            · exact ⟨idx, by omega, by omega⟩
            · exact ⟨idx, by omega, by omega⟩
            · exact F4 o ho

/-- With a budget that outlasts the buffer the loop does not run out of
fuel. -/
theorem extract_loop_enough_fuel (vpm : List Byte) {list_offset fuel idx : Nat}
    (hL : list_offset < 65536) (hs : vpm.length ≤ MAX_FILE_SIZE) (hi : idx ≤ INT_MAX)
    (h1 : 1 ≤ fuel) (hf : vpm.length < 8 * (idx + fuel)) :
    (extract_loop vpm list_offset fuel idx).outcome ≠ .out_of_fuel := by
  intro hout
  have F := extract_loop_facts vpm hL hs fuel idx hi
  generalize extract_loop vpm list_offset fuel idx = r at F hout
  obtain ⟨-, F2, F3, -⟩ := F
  have hlen : r.files.length = fuel := by
    rcases F3 with h | h | h | h
    · rw [hout] at h; exact absurd h.1 (by decide)
    · rw [hout] at h; exact absurd h.1 (by decide)
    · rw [hout] at h; exact absurd h.1 (by decide)
    · exact h.2
  have := F2 (idx + fuel - 1) (by omega) (by omega)
  omega

/-- Once the loop ends without running out of fuel, more fuel changes
nothing. -/
theorem extract_loop_more_fuel (vpm : List Byte) {list_offset : Nat}
    (hL : list_offset < 65536) (hs : vpm.length ≤ MAX_FILE_SIZE) :
    ∀ (fuel idx k : Nat), idx ≤ INT_MAX →
      (extract_loop vpm list_offset fuel idx).outcome ≠ .out_of_fuel →
      extract_loop vpm list_offset (fuel + k) idx = extract_loop vpm list_offset fuel idx := by
  intro fuel
  induction fuel with
  | zero => intro idx k _ h; simp [extract_loop] at h
  | succ fuel ih =>
    intro idx k hi h
    have e : fuel + 1 + k = (fuel + k) + 1 := by omega
    rw [e, extract_loop_succ vpm (fuel + k) hL hi hs]
    rw [extract_loop_succ vpm fuel hL hi hs] at h ⊢
    by_cases h1 : list_offset + 8 * idx + 8 > vpm.length
    · simp [h1]
    · by_cases h2 : list_offset + 8 * idx ≥ wav_offset_at vpm list_offset
      · simp [h1, h2]
      · by_cases h3 : wav_offset_at vpm (list_offset + 8 * idx) +
            wav_length_at vpm (list_offset + 8 * idx) > vpm.length
        · simp [h1, h2, h3]
        · simp only [h1, h2, h3, if_false] at h ⊢
          have hint : idx + 1 ≤ INT_MAX := by
            unfold MAX_FILE_SIZE at hs; unfold INT_MAX; omega
          rw [ih (idx + 1) k hint h]

/-! ## The whole program -/

theorem read_whole_vpm_ok {file : List Byte} (h0 : 0 < file.length)
    (hs : file.length ≤ MAX_FILE_SIZE) : read_whole_vpm file = .ok file := by
  have h1 : ¬ file.length > MAX_FILE_SIZE := by omega
  have h2 : file.length ≠ 0 := by omega
  simp only [read_whole_vpm, h1, h2, if_false]

theorem read_whole_vpm_eq_ok {file vpm : List Byte} (h : read_whole_vpm file = .ok vpm) :
    vpm = file ∧ 0 < file.length ∧ file.length ≤ MAX_FILE_SIZE := by
  unfold read_whole_vpm at h
  by_cases h1 : file.length > MAX_FILE_SIZE
  · simp [h1] at h
  · by_cases h2 : file.length = 0
    · simp [h1, h2] at h
    · simp only [h1, h2, if_false, Except.ok.injEq] at h
      exact ⟨h.symm, by omega, by omega⟩

theorem whole_file_huge {file : List Byte} (fuel : Nat) (h : MAX_FILE_SIZE < file.length) :
    extract_whole_vpm_fuel fuel file = ⟨[], [], .file_huge⟩ := by
  simp [extract_whole_vpm_fuel, read_whole_vpm, h]

theorem whole_read_failed {file : List Byte} (fuel : Nat) (h : file.length = 0) :
    extract_whole_vpm_fuel fuel file = ⟨[], [], .read_failed⟩ := by
  simp [extract_whole_vpm_fuel, read_whole_vpm, h, MAX_FILE_SIZE]

theorem whole_too_small {file : List Byte} (fuel : Nat) (h0 : 0 < file.length)
    (h : file.length < sizeof_vpm_header) :
    extract_whole_vpm_fuel fuel file = ⟨[], [], .too_small⟩ := by
  have hs : file.length ≤ MAX_FILE_SIZE := by
    unfold sizeof_vpm_header at h; unfold MAX_FILE_SIZE; omega
  simp only [extract_whole_vpm_fuel, read_whole_vpm_ok h0 hs, h, if_true]

theorem read_magic {file : List Byte} (hl : sizeof_vpm_header ≤ file.length) :
    read_bytes file 0 sizeof_vpm_magic = some (file.take sizeof_vpm_magic) := by
  unfold sizeof_vpm_header at hl
  rw [read_bytes_of_le (by unfold sizeof_vpm_magic; omega)]
  simp

theorem whole_bad_magic {file : List Byte} (fuel : Nat) (hs : file.length ≤ MAX_FILE_SIZE)
    (hl : sizeof_vpm_header ≤ file.length) (hm : file.take sizeof_vpm_magic ≠ AUDIMG) :
    extract_whole_vpm_fuel fuel file = ⟨[], [], .bad_magic⟩ := by
  have h0 : 0 < file.length := by unfold sizeof_vpm_header at hl; omega
  have h2 : ¬ file.length < sizeof_vpm_header := by omega
  simp [extract_whole_vpm_fuel, read_whole_vpm_ok h0 hs, h2, read_magic hl, hm]

theorem whole_passes {file : List Byte} (fuel : Nat) (hp : passes_header file) :
    extract_whole_vpm_fuel fuel file = extract_loop file (hdr_list_offset file) fuel 0 := by
  obtain ⟨hs, hl, hm⟩ := hp
  have h0 : 0 < file.length := by unfold sizeof_vpm_header at hl; omega
  have h2 : ¬ file.length < sizeof_vpm_header := by omega
  have h3 : read_u16 file offsetof_vpm_list_offset = some (hdr_list_offset file) := by
    unfold hdr_list_offset
    exact read_u16_of_le (by unfold sizeof_vpm_header at hl; unfold offsetof_vpm_list_offset; omega)
  simp [extract_whole_vpm_fuel, read_whole_vpm_ok h0 hs, h2, read_magic hl, hm, h3]

/-- A buffer whose header does not pass ends at the same early exit for
every budget, with nothing read from the table and nothing extracted. -/
theorem whole_early {file : List Byte} (hn : ¬ passes_header file) :
    ∃ e, (e = Outcome.file_huge ∨ e = Outcome.read_failed ∨ e = Outcome.too_small ∨
        e = Outcome.bad_magic) ∧
      ∀ fuel, extract_whole_vpm_fuel fuel file = ⟨[], [], e⟩ := by
  by_cases h1 : MAX_FILE_SIZE < file.length
  · exact ⟨_, Or.inl rfl, fun fuel => whole_file_huge fuel h1⟩
  · by_cases h0 : file.length = 0
    · exact ⟨_, Or.inr (Or.inl rfl), fun fuel => whole_read_failed fuel h0⟩
    · by_cases h2 : file.length < sizeof_vpm_header
      · exact ⟨_, Or.inr (Or.inr (Or.inl rfl)),
          fun fuel => whole_too_small fuel (by omega) h2⟩
      · refine ⟨_, Or.inr (Or.inr (Or.inr rfl)),
          fun fuel => whole_bad_magic fuel (by omega) (by omega) ?_⟩
        intro hm
        exact hn ⟨by omega, by omega, hm⟩

theorem whole_facts {file : List Byte} (fuel : Nat) (hp : passes_header file) :
    LoopFacts file (hdr_list_offset file) fuel 0 (extract_whole_vpm_fuel fuel file) := by
  rw [whole_passes fuel hp]
  exact extract_loop_facts file (hdr_list_offset_lt file) hp.1 fuel 0 (by simp)

theorem whole_not_out_of_fuel {file : List Byte} {fuel : Nat}
    (hf : file.length / 8 + 1 ≤ fuel) :
    (extract_whole_vpm_fuel fuel file).outcome ≠ .out_of_fuel := by
  by_cases hp : passes_header file
  · rw [whole_passes fuel hp]
    exact extract_loop_enough_fuel file (hdr_list_offset_lt file) hp.1 (by simp) (by omega)
      (by omega)
  · obtain ⟨e, he, h⟩ := whole_early hp
    rw [h fuel]
    rcases he with rfl | rfl | rfl | rfl <;> decide

/-- The facts of the loop for the run `extract_whole_vpm`, with the
out-of-fuel ending excluded. -/
theorem run_facts {file : List Byte} (hp : passes_header file) :
    LoopFacts file (hdr_list_offset file) (file.length / 8 + 1) 0 (extract_whole_vpm file) ∧
      (extract_whole_vpm file).outcome ≠ .out_of_fuel :=
  ⟨whole_facts _ hp, whole_not_out_of_fuel (by simp [sizeof_vpm_list_entry])⟩

/-- The extracted files are the files of the table slots `0, 1, ...`, each
of them a slot that passed all three tests of the loop. -/
theorem mem_files {file : List Byte} {f : Extracted}
    (hf : f ∈ (extract_whole_vpm file).files) :
    passes_header file ∧ f = entry_file file (hdr_list_offset file) f.idx ∧
      f.idx < (extract_whole_vpm file).files.length ∧
      slot file f.idx + 8 ≤ file.length ∧ slot file f.idx < first_wav_offset file ∧
      wav_offset_at file (slot file f.idx) + wav_length_at file (slot file f.idx)
        ≤ file.length := by
  have hp : passes_header file := by
    by_contra hn
    obtain ⟨e, -, h⟩ := whole_early hn
    unfold extract_whole_vpm at hf
    rw [h] at hf
    simp at hf
  obtain ⟨⟨F1, F2, -, -⟩, -⟩ := run_facts hp
  rw [F1] at hf
  simp only [List.mem_map, List.mem_range'_1] at hf
  obtain ⟨i, ⟨h0, hi⟩, rfl⟩ := hf
  have := F2 i (by omega) (by omega)
  refine ⟨hp, rfl, ?_, ?_⟩
  · simp only [entry_file]; omega
  · simpa [entry_file, slot, first_wav_offset] using this

/-! ## The claims -/

/-- C1: every call of `extract_wav_file` that a run makes (`Run.files` lists
each call made, in bounds or not) has `wav_offset + wav_length ≤ size` as an
exact sum, so the bytes written are the `wav_length` bytes of the buffer that
start at `wav_offset`; nothing is assumed about how the run ends. -/
theorem C1_extracted_range_within_buffer (file : List Byte) (f : Extracted)
    (hf : f ∈ (extract_whole_vpm file).files) :
    f.wav_offset + f.wav_length ≤ file.length ∧
      read_bytes file f.wav_offset f.wav_length = some f.data ∧
      f.data.length = f.wav_length := by
  obtain ⟨-, hf1, -, -, -, hb⟩ := mem_files hf
  have e1 : f.wav_offset = wav_offset_at file (slot file f.idx) := by
    conv_lhs => rw [hf1]
    rfl
  have e2 : f.wav_length = wav_length_at file (slot file f.idx) := by
    conv_lhs => rw [hf1]
    rfl
  have e3 : f.data = (file.drop f.wav_offset).take f.wav_length := by
    conv_lhs => rw [hf1]
    rw [e1, e2]
    rfl
  have hle : f.wav_offset + f.wav_length ≤ file.length := by rw [e1, e2]; exact hb
  refine ⟨hle, ?_, ?_⟩
  · rw [read_bytes_of_le hle, e3]
  · rw [e3]; simp; omega

theorem C1_extracted_range_within_buffer_witness :
    (⟨1, 41, 3, [6, 7, 8]⟩ : Extracted) ∈ (extract_whole_vpm sample_two).files ∧
      41 + 3 ≤ sample_two.length ∧
      read_bytes sample_two 41 3 = some [6, 7, 8] :=
  have h : (⟨1, 41, 3, [6, 7, 8]⟩ : Extracted) ∈ (extract_whole_vpm sample_two).files := by
    decide
  ⟨h, (C1_extracted_range_within_buffer sample_two _ h).1,
    (C1_extracted_range_within_buffer sample_two _ h).2.1⟩

/-- C5: no run reads outside the buffer; every 32-bit table field that is
read (the terminator `first_entry->vpm_wav_offset` included) lies in a slot
`list_offset + 8 * j` with `list_offset + 8 * j + 8 ≤ size`; and when the
header passes and `list_offset + 8 > size` the run ends with "offset array
is too big for the file" having read no table field and extracted nothing. -/
theorem C5_table_reads_within_buffer (file : List Byte) :
    (extract_whole_vpm file).outcome ≠ .bad_read ∧
    (∀ o ∈ (extract_whole_vpm file).reads, ∃ j, slot file j + 8 ≤ file.length ∧
      (o = slot file j ∨ o = slot file j + 4)) ∧
    (passes_header file → file.length < hdr_list_offset file + 8 →
      extract_whole_vpm file = ⟨[], [], .table_oob⟩) := by
  refine ⟨?_, ?_, ?_⟩
  · by_cases hp : passes_header file
    · obtain ⟨⟨-, -, F3, -⟩, -⟩ := run_facts hp
      intro hbad
      rw [hbad] at F3
      rcases F3 with h | h | h | h <;> exact absurd h.1 (by decide)
    · obtain ⟨e, he, h⟩ := whole_early hp
      unfold extract_whole_vpm
      rw [h]
      rcases he with rfl | rfl | rfl | rfl <;> decide
  · by_cases hp : passes_header file
    · obtain ⟨⟨-, -, -, F4⟩, -⟩ := run_facts hp
      exact F4
    · obtain ⟨e, -, h⟩ := whole_early hp
      unfold extract_whole_vpm
      rw [h]
      simp
  · intro hp hlt
    unfold extract_whole_vpm
    rw [whole_passes _ hp, extract_loop_succ file _ (hdr_list_offset_lt file) (by simp) hp.1]
    have : hdr_list_offset file + 8 * 0 + 8 > file.length := by omega
    simp only [this, if_true]

theorem C5_table_reads_within_buffer_witness :
    passes_header sample_no_table ∧
      sample_no_table.length < hdr_list_offset sample_no_table + 8 ∧
      extract_whole_vpm sample_no_table = ⟨[], [], .table_oob⟩ :=
  ⟨by decide, by decide,
    (C5_table_reads_within_buffer sample_no_table).2.2 (by decide) (by decide)⟩

/-- C7: the loop terminates: with any budget of at least `size / 8 + 1`
iterations the run is the same run, it ends at the `break` or with one of
the program's error exits, and it extracts at most `size / 8` files. -/
theorem C7_enumeration_terminates (file : List Byte) (fuel : Nat)
    (hfuel : file.length / 8 + 1 ≤ fuel) :
    extract_whole_vpm_fuel fuel file = extract_whole_vpm file ∧
    (extract_whole_vpm file).outcome ∈
      [Outcome.ok, .file_huge, .read_failed, .too_small, .bad_magic, .table_oob, .wav_oob] ∧
    (extract_whole_vpm file).files.length ≤ file.length / 8 := by
  by_cases hp : passes_header file
  · obtain ⟨⟨-, F2, F3, -⟩, hne⟩ := run_facts hp
    refine ⟨?_, ?_, ?_⟩
    · obtain ⟨k, rfl⟩ : ∃ k, fuel = (file.length / sizeof_vpm_list_entry + 1) + k :=
        ⟨fuel - (file.length / 8 + 1), by simp only [sizeof_vpm_list_entry]; omega⟩
      have hne' := hne
      unfold extract_whole_vpm at hne' ⊢
      rw [whole_passes _ hp] at hne' ⊢
      rw [whole_passes _ hp]
      exact extract_loop_more_fuel file (hdr_list_offset_lt file) hp.1 _ 0 k (by simp) hne'
    · rcases F3 with h | h | h | h
      · simp [h.1]
      · simp [h.1]
      · simp [h.1]
      · exact absurd h.1 hne
    · by_cases h0 : (extract_whole_vpm file).files.length = 0
      · omega
      · have := F2 ((extract_whole_vpm file).files.length - 1) (by omega) (by omega)
        omega
  · obtain ⟨e, he, h⟩ := whole_early hp
    have hrun : extract_whole_vpm file = ⟨[], [], e⟩ := h _
    refine ⟨by rw [h fuel, hrun], ?_, by rw [hrun]; simp⟩
    rw [hrun]
    rcases he with rfl | rfl | rfl | rfl <;> simp

theorem C7_enumeration_terminates_witness :
    extract_whole_vpm_fuel 1000 sample_two = extract_whole_vpm sample_two ∧
      (extract_whole_vpm sample_two).files.length ≤ sample_two.length / 8 :=
  ⟨(C7_enumeration_terminates sample_two 1000 (by decide)).1,
    (C7_enumeration_terminates sample_two 1000 (by decide)).2.2⟩

/-- C8: a buffer (what `read_whole_vpm` returns for the source file) shorter
than `sizeof(struct vpm_header)` = 20 bytes ends with "source file is too
small", whatever its bytes are, with no table field read and nothing
extracted; a buffer of at least 20 bytes never ends that way. -/
theorem C8_too_small (file vpm : List Byte) (hbuf : read_whole_vpm file = .ok vpm) :
    (vpm.length < sizeof_vpm_header → extract_whole_vpm file = ⟨[], [], .too_small⟩) ∧
    (sizeof_vpm_header ≤ vpm.length → (extract_whole_vpm file).outcome ≠ .too_small) := by
  obtain ⟨rfl, h0, hs⟩ := read_whole_vpm_eq_ok hbuf
  refine ⟨fun h => whole_too_small _ h0 h, fun h => ?_⟩
  by_cases hp : passes_header vpm
  · obtain ⟨⟨-, -, F3, -⟩, -⟩ := run_facts hp
    intro hbad
    rw [hbad] at F3
    rcases F3 with h | h | h | h <;> exact absurd h.1 (by decide)
  · have hm : vpm.take sizeof_vpm_magic ≠ AUDIMG := fun hm => hp ⟨hs, h, hm⟩
    unfold extract_whole_vpm
    rw [whole_bad_magic _ hs h hm]; decide

theorem C8_too_small_witness :
    read_whole_vpm sample_short = .ok sample_short ∧
      sample_short.length < sizeof_vpm_header ∧
      extract_whole_vpm sample_short = ⟨[], [], .too_small⟩ ∧
      sizeof_vpm_header ≤ sample_two.length ∧
      (extract_whole_vpm sample_two).outcome ≠ .too_small :=
  ⟨rfl, by decide, (C8_too_small sample_short sample_short rfl).1 (by decide),
    by decide, (C8_too_small sample_two sample_two rfl).2 (by decide)⟩

/-- C9: a buffer (what `read_whole_vpm` returns for the source file) of at
least 20 bytes whose first six bytes are not `AUDIMG` ends with "not a Garmin
vpm file (wrong magic)", whatever its other bytes are, with no table field
read and nothing extracted; a buffer whose first six bytes are `AUDIMG` never
ends that way. -/
theorem C9_bad_magic (file vpm : List Byte) (hbuf : read_whole_vpm file = .ok vpm) :
    (sizeof_vpm_header ≤ vpm.length → vpm.take sizeof_vpm_magic ≠ AUDIMG →
      extract_whole_vpm file = ⟨[], [], .bad_magic⟩) ∧
    (vpm.take sizeof_vpm_magic = AUDIMG → (extract_whole_vpm file).outcome ≠ .bad_magic) := by
  obtain ⟨rfl, h0, hs⟩ := read_whole_vpm_eq_ok hbuf
  refine ⟨fun hl hm => whole_bad_magic _ hs hl hm, fun hm => ?_⟩
  by_cases hp : passes_header vpm
  · obtain ⟨⟨-, -, F3, -⟩, -⟩ := run_facts hp
    intro hbad
    rw [hbad] at F3
    rcases F3 with h | h | h | h <;> exact absurd h.1 (by decide)
  · have h2 : vpm.length < sizeof_vpm_header := by
      by_contra h2
      exact hp ⟨hs, by omega, hm⟩
    unfold extract_whole_vpm
    rw [whole_too_small _ h0 h2]; decide

theorem C9_bad_magic_witness :
    read_whole_vpm sample_wrong_magic = .ok sample_wrong_magic ∧
      sizeof_vpm_header ≤ sample_wrong_magic.length ∧
      sample_wrong_magic.take sizeof_vpm_magic ≠ AUDIMG ∧
      extract_whole_vpm sample_wrong_magic = ⟨[], [], .bad_magic⟩ ∧
      sample_two.take sizeof_vpm_magic = AUDIMG ∧
      (extract_whole_vpm sample_two).outcome ≠ .bad_magic :=
  ⟨rfl, by decide, by decide,
    (C9_bad_magic sample_wrong_magic sample_wrong_magic rfl).1 (by decide) (by decide),
    by decide, (C9_bad_magic sample_two sample_two rfl).2 (by decide)⟩

/-- C4: for an entry that the enumeration reaches (all earlier indices were
extracted, its slot fits in the buffer and starts before the terminator) the
fixed-width test `wav_off + wav_len < wav_off || wav_off + wav_len > size`
is true exactly when the exact sum exceeds `size`; the run ends at that
index with "wav file is out of bounds" exactly in that case and extracts the
entry otherwise.  So a sum equal to `size` is accepted, `size + 1` is
rejected, and `0xFFFFFFF0 + 0x20` is rejected. -/
theorem C4_payload_check_exact (file : List Byte) (idx : Nat) (hp : passes_header file)
    (hreach : idx ≤ (extract_whole_vpm file).files.length)
    (hslot : slot file idx + 8 ≤ file.length)
    (hbefore : slot file idx < first_wav_offset file) :
    (wav_check file.length (wav_offset_at file (slot file idx))
        (wav_length_at file (slot file idx)) = true ↔
      file.length < wav_offset_at file (slot file idx) + wav_length_at file (slot file idx)) ∧
    (((extract_whole_vpm file).files.length = idx ∧
        (extract_whole_vpm file).outcome = .wav_oob) ↔
      file.length < wav_offset_at file (slot file idx) + wav_length_at file (slot file idx)) ∧
    (entry_file file (hdr_list_offset file) idx ∈ (extract_whole_vpm file).files ↔
      wav_offset_at file (slot file idx) + wav_length_at file (slot file idx) ≤ file.length) ∧
    (wav_offset_at file (slot file idx) + wav_length_at file (slot file idx) = file.length →
      entry_file file (hdr_list_offset file) idx ∈ (extract_whole_vpm file).files) ∧
    (wav_offset_at file (slot file idx) + wav_length_at file (slot file idx)
        = file.length + 1 →
      (extract_whole_vpm file).files.length = idx ∧
        (extract_whole_vpm file).outcome = .wav_oob) ∧
    (wav_offset_at file (slot file idx) = 0xFFFFFFF0 →
      wav_length_at file (slot file idx) = 0x20 →
      (extract_whole_vpm file).files.length = idx ∧
        (extract_whole_vpm file).outcome = .wav_oob) := by
  obtain ⟨⟨F1, F2, F3, -⟩, hne⟩ := run_facts hp
  have hsz : file.length ≤ 52428800 := hp.1
  simp only [slot, first_wav_offset] at hslot hbefore
  simp only [Nat.zero_add] at F2 F3
  simp only [slot]
  have hmem : entry_file file (hdr_list_offset file) idx ∈ (extract_whole_vpm file).files ↔
      idx < (extract_whole_vpm file).files.length := by
    constructor
    · intro h
      rw [F1] at h
      simp only [List.mem_map, List.mem_range'_1] at h
      obtain ⟨i, ⟨-, hi⟩, he⟩ := h
      have : i = idx := congrArg Extracted.idx he
      omega
    · intro h
      rw [F1]
      simp only [List.mem_map, List.mem_range'_1]
      exact ⟨idx, ⟨by omega, by simp; omega⟩, rfl⟩
  have hrej : ((extract_whole_vpm file).files.length = idx ∧
        (extract_whole_vpm file).outcome = .wav_oob) ↔
      file.length < wav_offset_at file (hdr_list_offset file + 8 * idx) +
        wav_length_at file (hdr_list_offset file + 8 * idx) := by
    constructor
    · rintro ⟨hlen, hout⟩
      rw [hout, hlen] at F3
      rcases F3 with h | h | h | h
      · exact absurd h.1 (by decide)
      · exact absurd h.1 (by decide)
      · exact h.2.2.2
      · exact absurd h.1 (by decide)
    · intro hgt
      have hlen : (extract_whole_vpm file).files.length = idx := by
        by_contra hlen
        have := F2 idx (by omega) (by omega)
        omega
      refine ⟨hlen, ?_⟩
      rw [hlen] at F3
      rcases F3 with h | h | h | h
      · omega
      · omega
      · exact h.1
      · exact absurd h.1 hne
  have hacc : idx < (extract_whole_vpm file).files.length ↔
      wav_offset_at file (hdr_list_offset file + 8 * idx) +
        wav_length_at file (hdr_list_offset file + 8 * idx) ≤ file.length := by
    constructor
    · intro h
      exact (F2 idx (by omega) (by omega)).2.2
    · intro h
      by_contra hlt
      have hlen : (extract_whole_vpm file).files.length = idx := by omega
      have := hrej.1.mt (by omega)
      rw [hlen] at F3
      rcases F3 with h' | h' | h' | h'
      · omega
      · omega
      · omega
      · exact absurd h'.1 hne
  refine ⟨?_, hrej, hmem.trans hacc, fun h => hmem.2 (hacc.2 (by omega)),
    fun h => hrej.2 (by omega), fun h1 h2 => hrej.2 (by omega)⟩
  rw [wav_check_eq (wav_offset_at_lt _ _) (wav_length_at_lt _ _)]
  simp

theorem C4_payload_check_exact_witness :
    entry_file sample_exact (hdr_list_offset sample_exact) 0 ∈
        (extract_whole_vpm sample_exact).files ∧
      ((extract_whole_vpm sample_one_beyond).files.length = 0 ∧
        (extract_whole_vpm sample_one_beyond).outcome = .wav_oob) ∧
      ((extract_whole_vpm sample_overflow).files.length = 0 ∧
        (extract_whole_vpm sample_overflow).outcome = .wav_oob) :=
  ⟨(C4_payload_check_exact sample_exact 0 (by decide) (by decide) (by decide)
      (by decide)).2.2.2.1 (by decide),
    (C4_payload_check_exact sample_one_beyond 0 (by decide) (by decide) (by decide)
      (by decide)).2.2.2.2.1 (by decide),
    (C4_payload_check_exact sample_overflow 0 (by decide) (by decide) (by decide)
      (by decide)).2.2.2.2.2 (by decide) (by decide)⟩

/-- C6: with `L = list_offset` and `t` the first entry's `wav_offset`, an
index `i` is extracted only if `L + 8 * i < t`; a run that ends at the
`break` has extracted exactly the indices `0, ..., n - 1`, where
`n = (t - L + 7) / 8` is the number of `i` with `L + 8 * i < t`; and when
the first slot fits in the buffer and `t ≤ L`, the run ends at the `break`
at index 0 with nothing extracted. -/
theorem C6_termination_rule (file : List Byte) (hp : passes_header file) :
    (∀ f ∈ (extract_whole_vpm file).files,
      hdr_list_offset file + 8 * f.idx < first_wav_offset file) ∧
    (∀ i, i < (first_wav_offset file - hdr_list_offset file + 7) / 8 ↔
      hdr_list_offset file + 8 * i < first_wav_offset file) ∧
    ((extract_whole_vpm file).outcome = .ok →
      (extract_whole_vpm file).files.map Extracted.idx =
        List.range ((first_wav_offset file - hdr_list_offset file + 7) / 8)) ∧
    (hdr_list_offset file + 8 ≤ file.length → first_wav_offset file ≤ hdr_list_offset file →
      (extract_whole_vpm file).files = [] ∧ (extract_whole_vpm file).outcome = .ok) := by
  obtain ⟨⟨F1, F2, F3, -⟩, hne⟩ := run_facts hp
  simp only [Nat.zero_add] at F2 F3
  refine ⟨?_, ?_, ?_, ?_⟩
  · intro f hf
    have := (mem_files hf).2.2.2.2.1
    simpa [slot] using this
  · intro i; omega
  · intro hok
    have hlen : (extract_whole_vpm file).files.length =
        (first_wav_offset file - hdr_list_offset file + 7) / 8 := by
      rw [hok] at F3
      simp only [first_wav_offset]
      rcases F3 with h | h | h | h
      · by_cases h0 : (extract_whole_vpm file).files.length = 0
        · omega
        · have := F2 ((extract_whole_vpm file).files.length - 1) (by omega) (by omega)
          omega
      · exact absurd h.1 (by decide)
      · exact absurd h.1 (by decide)
      · exact absurd h.1 (by decide)
    rw [← hlen]
    conv_lhs => rw [F1]
    rw [List.map_map, List.range_eq_range']
    have : (Extracted.idx ∘ entry_file file (hdr_list_offset file)) = id := by
      funext i; rfl
    rw [this, List.map_id]
  · intro hfit ht
    have hrun : extract_whole_vpm file = ⟨[], [hdr_list_offset file], .ok⟩ := by
      unfold extract_whole_vpm
      rw [whole_passes _ hp, extract_loop_succ file _ (hdr_list_offset_lt file) (by simp) hp.1]
      have h1 : ¬ hdr_list_offset file + 8 * 0 + 8 > file.length := by omega
      have h2 : hdr_list_offset file + 8 * 0 ≥ wav_offset_at file (hdr_list_offset file) := by
        simp only [first_wav_offset] at ht; omega
      simp only [h1, h2, if_true, if_false]
    rw [hrun]
    exact ⟨rfl, rfl⟩

theorem C6_termination_rule_witness :
    (extract_whole_vpm sample_two).files.map Extracted.idx = List.range 2 ∧
      (extract_whole_vpm sample_self).files = [] ∧
      (extract_whole_vpm sample_self).outcome = .ok :=
  ⟨(C6_termination_rule sample_two (by decide)).2.2.1 (by decide),
    (C6_termination_rule sample_self (by decide)).2.2.2 (by decide) (by decide)⟩

/-- In a well-formed container every payload ends at or before the end of
the last one. -/
theorem well_formed_payload_le {N : Nat} {wo wl : Nat → Nat}
    (hchain : ∀ i, i + 1 < N → wo (i + 1) = wo i + wl i) :
    ∀ d i, i + d + 1 = N → wo i + wl i ≤ wo (N - 1) + wl (N - 1) := by
  intro d
  induction d with
  | zero =>
    intro i hi
    have : N - 1 = i := by omega
    rw [this]
  | succ d ih =>
    intro i hi
    have h1 := hchain i (by omega)
    have h2 := ih (i + 1) (by omega)
    omega

/-- C2, as stated, fails on its own scenario: the 31-byte container with
`list_offset = 19` is a well-formed container with one entry, and on it the
run extracts `(0, 27, 4)` and then ends with "offset array is
too big for the file": the slot at the stopping index 1 starts at byte 27 and
would end at byte 35, beyond the 31 bytes of the buffer. -/
theorem C2_scenario_ends_with_table_error :
    well_formed scenario_31 1 (fun _ => 27) (fun _ => 4) ∧
      hdr_list_offset scenario_31 = 19 ∧ scenario_31.length = 31 ∧
      (extract_whole_vpm scenario_31).files.map Extracted.descriptor = [(0, 27, 4)] ∧
      (extract_whole_vpm scenario_31).outcome = .table_oob ∧
      (extract_whole_vpm scenario_31).outcome ≠ .ok := by
  refine ⟨⟨by decide, by decide, ?_, by decide, ?_, by decide⟩, by decide, by decide,
    by decide, by decide, by decide⟩
  · intro i hi
    obtain rfl : i = 0 := by omega
    decide
  · intro i hi
    omega

/-- C2 (amended): for a well-formed container with `N ≥ 1` entries the run
extracts exactly the descriptors `(0, wo 0, wl 0), ...,
(N - 1, wo (N - 1), wl (N - 1))` in this order; it then ends at the `break`
when at least 8 bytes follow the table (`list_offset + 8 * N + 8 ≤ size`)
and with "offset array is too big for the file" otherwise. -/
theorem C2_well_formed_enumeration (file : List Byte) (N : Nat) (wo wl : Nat → Nat)
    (hw : well_formed file N wo wl) :
    (extract_whole_vpm file).files.map Extracted.descriptor =
        (List.range N).map (fun i => (i, wo i, wl i)) ∧
      (slot file N + 8 ≤ file.length → (extract_whole_vpm file).outcome = .ok) ∧
      (file.length < slot file N + 8 → (extract_whole_vpm file).outcome = .table_oob) := by
  obtain ⟨hp, hN, hent, h0, hchain, hsize⟩ := hw
  obtain ⟨⟨F1, F2, F3, -⟩, hne⟩ := run_facts hp
  simp only [Nat.zero_add] at F2 F3
  simp only [slot] at hent h0 ⊢
  have hwo : ∀ i, i < N → wav_offset_at file (hdr_list_offset file + 8 * i) = wo i ∧
      wav_length_at file (hdr_list_offset file + 8 * i) = wl i := by
    intro i hi
    have := hent i hi
    simp [wav_offset_at, wav_length_at, offsetof_vpm_wav_length, this.1, this.2]
  have ht : wav_offset_at file (hdr_list_offset file) = hdr_list_offset file + 8 * N := by
    have := (hwo 0 (by omega)).1
    simp only [Nat.mul_zero, Nat.add_zero] at this
    rw [this, h0]
  have hpay : ∀ i, i < N → wav_offset_at file (hdr_list_offset file + 8 * i) +
      wav_length_at file (hdr_list_offset file + 8 * i) ≤ file.length := by
    intro i hi
    rw [(hwo i hi).1, (hwo i hi).2, hsize]
    exact well_formed_payload_le hchain (N - 1 - i) i (by omega)
  have htable : hdr_list_offset file + 8 * N ≤ file.length := by
    have := hpay 0 (by omega)
    simp only [Nat.mul_zero, Nat.add_zero] at this
    omega
  have hupper : (extract_whole_vpm file).files.length ≤ N := by
    by_contra hgt
    have := F2 ((extract_whole_vpm file).files.length - 1) (by omega) (by omega)
    omega
  have hall : (extract_whole_vpm file).files.length = N ∧
      (hdr_list_offset file + 8 * N + 8 ≤ file.length →
        (extract_whole_vpm file).outcome = .ok) ∧
      (file.length < hdr_list_offset file + 8 * N + 8 →
        (extract_whole_vpm file).outcome = .table_oob) := by
    rcases F3 with h | h | h | h
    · have hlen : (extract_whole_vpm file).files.length = N := by omega
      rw [hlen] at h
      exact ⟨hlen, fun _ => h.1, fun hlt => by omega⟩
    · have hlen : (extract_whole_vpm file).files.length = N := by omega
      rw [hlen] at h
      exact ⟨hlen, fun hle => by omega, fun _ => h.1⟩
    · have := hpay (extract_whole_vpm file).files.length (by omega)
      omega
    · exact absurd h.1 hne
  refine ⟨?_, hall.2.1, hall.2.2⟩
  conv_lhs => rw [F1]
  rw [hall.1, List.map_map, List.range_eq_range']
  apply List.map_congr_left
  intro i hi
  simp only [List.mem_range'_1] at hi
  have := hwo i (by omega)
  simp [Extracted.descriptor, entry_file, this.1, this.2]

theorem C2_well_formed_enumeration_witness :
    (well_formed sample_two 2 (fun i => if i = 0 then 36 else 41)
        (fun i => if i = 0 then 5 else 3) ∧
      (extract_whole_vpm sample_two).files.map Extracted.descriptor =
        [(0, 36, 5), (1, 41, 3)] ∧
      (extract_whole_vpm sample_two).outcome = .ok) ∧
    (well_formed scenario_31 1 (fun _ => 27) (fun _ => 4) ∧
      (extract_whole_vpm scenario_31).files.map Extracted.descriptor = [(0, 27, 4)] ∧
      (extract_whole_vpm scenario_31).outcome = .table_oob) :=
  have hw : well_formed sample_two 2 (fun i => if i = 0 then 36 else 41)
      (fun i => if i = 0 then 5 else 3) := by
    refine ⟨by decide, by decide, ?_, by decide, ?_, by decide⟩
    · intro i hi
      have : i = 0 ∨ i = 1 := by omega
      rcases this with rfl | rfl <;> decide
    · intro i hi
      obtain rfl : i = 0 := by omega
      decide
  have hs : well_formed scenario_31 1 (fun _ => 27) (fun _ => 4) := by
    refine ⟨by decide, by decide, ?_, by decide, ?_, by decide⟩
    · intro i hi
      obtain rfl : i = 0 := by omega
      decide
    · intro i hi
      omega
  ⟨⟨hw, (C2_well_formed_enumeration sample_two 2 _ _ hw).1,
      (C2_well_formed_enumeration sample_two 2 _ _ hw).2.1 (by decide)⟩,
    ⟨hs, (C2_well_formed_enumeration scenario_31 1 _ _ hs).1,
      (C2_well_formed_enumeration scenario_31 1 _ _ hs).2.2 (by decide)⟩⟩

/-- C10, as stated, fails on a buffer whose header passes, whose first slot
at or after the terminator offset 28 is slot 1, with only 2 bytes of the
buffer at and after that slot: the run ends at index 0 with "wav file is out of bounds", not with
"offset array is too big for the file" at index 1, and extracts nothing. -/
theorem C10_payload_error_comes_first :
    passes_header sample_bad_payload ∧
      slot sample_bad_payload 0 < first_wav_offset sample_bad_payload ∧
      first_wav_offset sample_bad_payload ≤ slot sample_bad_payload 1 ∧
      sample_bad_payload.length < slot sample_bad_payload 1 + 8 ∧
      extract_whole_vpm sample_bad_payload = ⟨[], [20, 20, 24], .wav_oob⟩ ∧
      (extract_whole_vpm sample_bad_payload).outcome ≠ .table_oob ∧
      (extract_whole_vpm sample_bad_payload).files.length ≠ 1 := by
  decide

/-- C10 (amended): a run that ends at the `break` after extracting `n` files
has `list_offset + 8 * n + 8 ≤ size`.  If the header passes and fewer than 8
bytes of the buffer lie at and after slot `n`, the first slot that starts at
or after the terminator, the run does not end at the `break`: it ends with
"offset array is too big for the file" or "wav file is out of bounds"; and
when all `n` slots before it fit in the buffer and pass the payload test, it
ends with "offset array is too big for the file" at index `n`, after
extracting `n` files. -/
theorem C10_stop_slot_must_fit (file : List Byte) :
    ((extract_whole_vpm file).outcome = .ok →
      slot file (extract_whole_vpm file).files.length + 8 ≤ file.length) ∧
    (passes_header file → ∀ n, first_wav_offset file ≤ slot file n →
      (∀ i, i < n → slot file i < first_wav_offset file) →
      file.length < slot file n + 8 →
      ((extract_whole_vpm file).outcome = .table_oob ∨
        (extract_whole_vpm file).outcome = .wav_oob) ∧
      ((∀ i, i < n → slot file i + 8 ≤ file.length ∧
          wav_offset_at file (slot file i) + wav_length_at file (slot file i) ≤ file.length) →
        (extract_whole_vpm file).files.length = n ∧
          (extract_whole_vpm file).outcome = .table_oob)) := by
  refine ⟨?_, ?_⟩
  · intro hok
    by_cases hp : passes_header file
    · obtain ⟨⟨-, -, F3, -⟩, -⟩ := run_facts hp
      simp only [Nat.zero_add] at F3
      rw [hok] at F3
      simp only [slot]
      rcases F3 with h | h | h | h
      · exact h.2.1
      · exact absurd h.1 (by decide)
      · exact absurd h.1 (by decide)
      · exact absurd h.1 (by decide)
    · obtain ⟨e, he, h⟩ := whole_early hp
      have hrun : extract_whole_vpm file = ⟨[], [], e⟩ := h _
      rw [hrun] at hok
      rcases he with rfl | rfl | rfl | rfl <;> exact absurd hok (by decide)
  · intro hp n hn hbefore hshort
    obtain ⟨⟨-, F2, F3, -⟩, hne⟩ := run_facts hp
    simp only [Nat.zero_add] at F2 F3
    simp only [slot, first_wav_offset] at hn hbefore hshort ⊢
    have hlast : 0 < (extract_whole_vpm file).files.length →
        (extract_whole_vpm file).files.length - 1 < n := by
      intro hpos
      have := F2 ((extract_whole_vpm file).files.length - 1) (by omega) (by omega)
      omega
    have hfirst : (extract_whole_vpm file).files.length < n →
        hdr_list_offset file + 8 * (extract_whole_vpm file).files.length <
          wav_offset_at file (hdr_list_offset file) := fun h => hbefore _ h
    refine ⟨?_, ?_⟩
    · rcases F3 with h | h | h | h
      · have : ¬ (extract_whole_vpm file).files.length < n := fun hlt => by
          have := hfirst hlt
          omega
        omega
      · exact Or.inl h.1
      · exact Or.inr h.1
      · exact absurd h.1 hne
    · intro hall
      rcases F3 with h | h | h | h
      · have : ¬ (extract_whole_vpm file).files.length < n := fun hlt => by
          have := hfirst hlt
          omega
        omega
      · refine ⟨?_, h.1⟩
        by_cases hlt : (extract_whole_vpm file).files.length < n
        · have := (hall _ hlt).1
          omega
        · omega
      · have hlt : (extract_whole_vpm file).files.length < n := by omega
        have := (hall _ hlt).2
        omega
      · exact absurd h.1 hne

theorem C10_stop_slot_must_fit_witness :
    slot sample_two (extract_whole_vpm sample_two).files.length + 8 ≤ sample_two.length ∧
      (extract_whole_vpm scenario_31).files.length = 1 ∧
      (extract_whole_vpm scenario_31).outcome = .table_oob :=
  ⟨(C10_stop_slot_must_fit sample_two).1 (by decide),
    ((C10_stop_slot_must_fit scenario_31).2 (by decide) 1 (by decide)
      (by intro i hi; obtain rfl : i = 0 := by omega
          decide)
      (by decide)).2
      (by intro i hi; obtain rfl : i = 0 := by omega
          decide)⟩

/-! ### Round trip -/

theorem le_decode_le32 {n : Nat} (h : n < 4294967296) : le_decode (le32 n) = n := by
  simp only [le32, le_decode, Fin.ofNat, Nat.mul_zero, Nat.add_zero]
  omega

theorem read_bytes_split (vpm : List Byte) (o : Nat) (a b : List Byte)
    (h : read_bytes vpm o (a.length + b.length) = some (a ++ b)) :
    read_bytes vpm o a.length = some a ∧ read_bytes vpm (o + a.length) b.length = some b := by
  obtain ⟨hle, he⟩ := read_bytes_eq_some.1 h
  have e1 : (vpm.drop o).take a.length = a := by
    have := congrArg (List.take a.length) he
    simp only [List.take_left', List.take_take] at this
    rw [Nat.min_eq_left (by omega)] at this
    exact this.symm
  have e2 : (vpm.drop (o + a.length)).take b.length = b := by
    have := congrArg (List.drop a.length) he
    simp only [List.drop_left'] at this
    rw [this, List.drop_take, ← List.drop_drop]
    simp [Nat.add_comm]
  refine ⟨?_, ?_⟩
  · rw [read_bytes_of_le (by omega), e1]
  · rw [read_bytes_of_le (by omega), e2]

/-- C3: for every extracted file, `wav_offset` and `wav_length` are the
little-endian 32-bit values stored at `list_offset + 8 * idx` and
`list_offset + 8 * idx + 4`, and the bytes written are
`buffer[wav_offset .. wav_offset + wav_length)`.  Hence, when the slot of
that index holds the serialised entry `(o, length of p)` and the payload `p`
is stored at byte `o`, the bytes written for that index are exactly `p`. -/
theorem C3_round_trip (file : List Byte) (f : Extracted)
    (hf : f ∈ (extract_whole_vpm file).files) :
    (read_u32 file (slot file f.idx) = some f.wav_offset ∧
      read_u32 file (slot file f.idx + 4) = some f.wav_length ∧
      read_bytes file f.wav_offset f.wav_length = some f.data) ∧
    ∀ (o : Nat) (p : List Byte), o < 4294967296 → p.length < 4294967296 →
      read_bytes file (slot file f.idx) 8 = some (le32 o ++ le32 p.length) →
      read_bytes file o p.length = some p →
      f.wav_offset = o ∧ f.wav_length = p.length ∧ f.data = p := by
  obtain ⟨-, hf1, -, hfit, -, hb⟩ := mem_files hf
  have e1 : f.wav_offset = wav_offset_at file (slot file f.idx) := by
    conv_lhs => rw [hf1]
    rfl
  have e2 : f.wav_length = wav_length_at file (slot file f.idx) := by
    conv_lhs => rw [hf1]
    rfl
  have e3 : f.data = (file.drop f.wav_offset).take f.wav_length := by
    conv_lhs => rw [hf1]
    rw [e1, e2]
    rfl
  have hle : f.wav_offset + f.wav_length ≤ file.length := by rw [e1, e2]; exact hb
  have r1 : read_u32 file (slot file f.idx) = some f.wav_offset := by
    rw [e1]; exact read_u32_of_le _ _ (by omega)
  have r2 : read_u32 file (slot file f.idx + 4) = some f.wav_length := by
    rw [e2]; exact read_u32_of_le _ _ (by omega)
  have r3 : read_bytes file f.wav_offset f.wav_length = some f.data := by
    rw [read_bytes_of_le hle, e3]
  refine ⟨⟨r1, r2, r3⟩, ?_⟩
  intro o p ho hpl hslot hpay
  have hsplit := read_bytes_split file (slot file f.idx) (le32 o) (le32 p.length) hslot
  have hlen : (le32 o).length = 4 := rfl
  rw [hlen] at hsplit
  have q1 : f.wav_offset = o := by
    have : read_u32 file (slot file f.idx) = some o := by
      simp only [read_u32, hsplit.1, Option.map_some', le_decode_le32 ho]
    rw [r1] at this
    exact Option.some.inj this
  have q2 : f.wav_length = p.length := by
    have h4 : (le32 p.length).length = 4 := rfl
    have h2 := hsplit.2
    rw [h4] at h2
    have : read_u32 file (slot file f.idx + 4) = some p.length := by
      simp only [read_u32, h2, Option.map_some', le_decode_le32 hpl]
    rw [r2] at this
    exact Option.some.inj this
  refine ⟨q1, q2, ?_⟩
  rw [q1, q2, hpay] at r3
  exact (Option.some.inj r3).symm

theorem C3_round_trip_witness :
    (⟨1, 40, 4, [31, 32, 33, 34]⟩ : Extracted) ∈ (extract_whole_vpm sample_apart).files ∧
      read_bytes sample_apart (slot sample_apart 1) 8 =
        some (le32 40 ++ le32 [31, 32, 33, 34].length) ∧
      read_bytes sample_apart 40 [31, 32, 33, 34].length = some [31, 32, 33, 34] ∧
      (⟨1, 40, 4, [31, 32, 33, 34]⟩ : Extracted).data = [31, 32, 33, 34] :=
  have h : (⟨1, 40, 4, [31, 32, 33, 34]⟩ : Extracted) ∈
      (extract_whole_vpm sample_apart).files := by decide
  ⟨h, by decide, by decide,
    ((C3_round_trip sample_apart _ h).2 40 [31, 32, 33, 34] (by decide) (by decide)
      (by decide) (by decide)).2.2⟩

end Vpm
